import Mathlib

/-!
Verification development for the lyricpass scraper (src/lyricpass.py).

The file embeds the program's pure data flow in Lean:

* the producer / worker / writer pipeline that moves song URLs and fetched
  lyric batches through two FIFO queues, terminated by the string sentinel
  value QUEUE_SENTINEL;
* the URL construction of build_urls;
* the passphrase normalisation make_phrases, including a faithful model of
  Python's textwrap.wrap with break_long_words=False and drop_whitespace=True.

Network access (urllib), the multiprocessing machinery, and the regular
expression based HTML extraction are external effects: a worker's fetch is
modelled as an oracle String -> Option (List String) (none models the
"Found no lyrics" skip, some b models re.split on the extracted block).
Queue deliveries are modelled as the lists of values each component
receives or emits, in order.
-/

/-- SITE constant (src/lyricpass.py line 35). -/
def SITE : String := "https://www.lyrics.com/"

/-- QUEUE_SENTINEL constant (src/lyricpass.py line 39): the distinguished
queue value is the plain string "ENQUEUE". -/
def QUEUE_SENTINEL : String := "ENQUEUE"

/-- A value travelling on the result queue: Python puts either a string
(the sentinel) or a list of strings (a lyric batch) on it. -/
inductive PyVal where
  | str (s : String) : PyVal
  | list (l : List String) : PyVal
deriving DecidableEq, Repr

/-- Python equality between result-queue values: strings compare by
contents, lists compare by contents, and a list never equals a string. -/
def pyEq : PyVal → PyVal → Bool
  | PyVal.str a, PyVal.str b => a == b
  | PyVal.list a, PyVal.list b => a == b
  | _, _ => false

/-- The sentinel as a result-queue value. -/
def sentinelVal : PyVal := PyVal.str QUEUE_SENTINEL

/-- The url-putting loop of producer (src/lyricpass.py lines 253-258):
each url is put on the work queue in input order (the full()/sleep dance
only delays a put; it never drops or reorders one). -/
def producerPutUrls : List String → List String
  | [] => []
  | url :: rest => url :: producerPutUrls rest

/-- The sentinel loop of producer (src/lyricpass.py lines 260-264): one
sentinel per consumer. -/
def producerPutSentinels : Nat → List String
  | 0 => []
  | n + 1 => QUEUE_SENTINEL :: producerPutSentinels n

/-- producer (src/lyricpass.py lines 251-264): the sequence of values put
on the work queue, in order. -/
def producer (urls : List String) (nConsumers : Nat) : List String :=
  producerPutUrls urls ++ producerPutSentinels nConsumers

/-- get_song_lyrics (src/lyricpass.py lines 218-248), as the list of values
the worker puts on the result queue, given the sequence of work-queue items
it receives.  On the sentinel it forwards one sentinel and stops (break);
on a url it consults the fetch oracle: none (no lyrics found) enqueues
nothing, some b enqueues the batch b. -/
def get_song_lyrics (fetch : String → Option (List String)) :
    List String → List PyVal
  | [] => []
  | url :: rest =>
    if url = QUEUE_SENTINEL then [sentinelVal]
    else
      match fetch url with
      | none => get_song_lyrics fetch rest
      | some lyrics => PyVal.list lyrics :: get_song_lyrics fetch rest

/-- write_data (src/lyricpass.py lines 194-201): the lines actually written
for one call; empty lines are skipped by the `if line` truthiness test. -/
def write_data (data : List String) : List String :=
  data.filter (fun line => line ≠ "")

/-- Iterating a Python value with `for line in data`: a list yields its
elements, a string yields its characters (as one-character strings). -/
def pyIter : PyVal → List String
  | PyVal.list l => l
  | PyVal.str s => s.toList.map (fun c => String.mk [c])

/-- Result of one lyric_writer run: the lines written to the raw file in
order, the number of write_data calls performed (each call opens the file
in append mode, creating it), and the queue items left unconsumed when the
loop breaks. -/
structure WriterResult where
  written : List String
  calls : Nat
  rest : List PyVal
deriving DecidableEq, Repr

/-- lyric_writer (src/lyricpass.py lines 204-215) consuming a sequence of
result-queue items: a sentinel bumps the finished counter and the loop
breaks when it reaches maxConcurrent; any other value is handed to
write_data.  The empty-list case models the writer still blocked on get();
under the hypotheses used below it is never reached before the break. -/
def lyric_writer (maxConcurrent : Nat) : Nat → List PyVal → WriterResult
  | _, [] => ⟨[], 0, []⟩
  | finished, v :: rest =>
    if pyEq v sentinelVal then
      if finished + 1 = maxConcurrent then ⟨[], 0, rest⟩
      else lyric_writer maxConcurrent (finished + 1) rest
    else
      let r := lyric_writer maxConcurrent finished rest
      ⟨write_data (pyIter v) ++ r.written, r.calls + 1, r.rest⟩

/-- build_urls (src/lyricpass.py line 189): the URL constructed for each
scraped song id.  The page download and the regex harvesting of ids are
external; the function is the map from ids to print URLs. -/
def build_urls (song_ids : List String) : List String :=
  song_ids.map (fun id => SITE ++ "db-print.php?id=" ++ id)

/-- Number of sentinels in a result-queue sequence. -/
def countSentinels (l : List PyVal) : Nat :=
  l.countP (fun v => pyEq v sentinelVal)

/-- Number of non-sentinel items in a result-queue sequence (each one
triggers exactly one write_data call). -/
def countBatchItems (l : List PyVal) : Nat :=
  l.countP (fun v => !pyEq v sentinelVal)

/-- The lines the writer emits for a sequence of consumed non-sentinel
items (sentinels write nothing). -/
def writtenOf (l : List PyVal) : List String :=
  l.foldr (fun v acc => if pyEq v sentinelVal then acc
                        else write_data (pyIter v) ++ acc) []

/-- Lines contributed by one fetched URL: none if the fetch reports no
lyrics, otherwise the non-empty lines of the batch. -/
def foundLineCount (fetch : String → Option (List String)) (u : String) : Nat :=
  match fetch u with
  | none => 0
  | some lyrics => (write_data lyrics).length

-- ### Basic lemmas about the pipeline functions

theorem producerPutUrls_eq (urls : List String) : producerPutUrls urls = urls := by
  induction urls with
  | nil => rfl
  | cons u rest ih => simp [producerPutUrls, ih]

theorem producerPutSentinels_eq (n : Nat) :
    producerPutSentinels n = List.replicate n QUEUE_SENTINEL := by
  induction n with
  | zero => rfl
  | succ n ih => simp [producerPutSentinels, ih, List.replicate_succ]

/-- The trace of one worker: given the urls it receives before its first
sentinel, it emits the batches of the found urls in order and then exactly
one sentinel, ignoring anything after the sentinel. -/
theorem get_song_lyrics_eq (fetch : String → Option (List String))
    (pre post : List String) (hpre : QUEUE_SENTINEL ∉ pre) :
    get_song_lyrics fetch (pre ++ QUEUE_SENTINEL :: post) =
      pre.filterMap (fun u => (fetch u).map PyVal.list) ++ [sentinelVal] := by
  induction pre with
  | nil => simp [get_song_lyrics]
  | cons u rest ih =>
    have hu : u ≠ QUEUE_SENTINEL := by
      intro h; exact hpre (h ▸ List.mem_cons_self u rest)
    have hrest : QUEUE_SENTINEL ∉ rest := fun h => hpre (List.mem_cons_of_mem u h)
    simp only [List.cons_append, get_song_lyrics, if_neg hu, List.filterMap_cons]
    cases h : fetch u with
    | none => simpa [h] using ih hrest
    | some lyrics => simp [h, ih hrest]

theorem pyEq_sentinel_iff (v : PyVal) : pyEq v sentinelVal = true ↔ v = sentinelVal := by
  cases v <;> simp [pyEq, sentinelVal]

theorem pyEq_list_sentinel (l : List String) : pyEq (PyVal.list l) sentinelVal = false := rfl

theorem countSentinels_nil : countSentinels [] = 0 := rfl

theorem countSentinels_cons (v : PyVal) (l : List PyVal) :
    countSentinels (v :: l) =
      countSentinels l + (if pyEq v sentinelVal then 1 else 0) := by
  simp [countSentinels, List.countP_cons]

theorem countSentinels_append (l₁ l₂ : List PyVal) :
    countSentinels (l₁ ++ l₂) = countSentinels l₁ + countSentinels l₂ := by
  simp [countSentinels, List.countP_append]

theorem countBatchItems_cons (v : PyVal) (l : List PyVal) :
    countBatchItems (v :: l) =
      countBatchItems l + (if pyEq v sentinelVal then 0 else 1) := by
  by_cases hv : pyEq v sentinelVal <;> simp [countBatchItems, List.countP_cons, hv]

theorem writtenOf_nil : writtenOf [] = [] := rfl

theorem writtenOf_cons (v : PyVal) (l : List PyVal) :
    writtenOf (v :: l) =
      if pyEq v sentinelVal then writtenOf l
      else write_data (pyIter v) ++ writtenOf l := rfl

/-- Core behaviour of the writer loop: starting with `finished = fin`, on a
stream holding exactly `maxC - fin` sentinels it consumes precisely up to
the (maxC - fin)-th sentinel, writes every batch it passed on the way, and
leaves the remainder of the stream untouched. -/
theorem lyric_writer_split (maxC : Nat) :
    ∀ (items : List PyVal) (fin : Nat), fin < maxC →
      countSentinels items = maxC - fin →
      ∃ pre post,
        items = pre ++ sentinelVal :: post ∧
        countSentinels pre = maxC - fin - 1 ∧
        lyric_writer maxC fin items =
          ⟨writtenOf pre, countBatchItems pre, post⟩ := by
  intro items
  induction items with
  | nil =>
    intro fin hlt hcount
    exfalso
    rw [countSentinels_nil] at hcount
    omega
  | cons v rest ih =>
    intro fin hlt hcount
    rw [countSentinels_cons] at hcount
    by_cases hv : pyEq v sentinelVal = true
    · have hveq : v = sentinelVal := (pyEq_sentinel_iff v).mp hv
      rw [if_pos hv] at hcount
      by_cases hfin : fin + 1 = maxC
      · refine ⟨[], rest, by simp [hveq], by simp [countSentinels_nil]; omega, ?_⟩
        simp [lyric_writer, hv, hfin, writtenOf_nil, countBatchItems, List.countP_nil]
      · have hlt' : fin + 1 < maxC := by omega
        have hcount' : countSentinels rest = maxC - (fin + 1) := by omega
        obtain ⟨pre, post, heq, hcp, hw⟩ := ih (fin + 1) hlt' hcount'
        refine ⟨v :: pre, post, by simp [heq], ?_, ?_⟩
        · rw [countSentinels_cons, if_pos hv]
          omega
        · rw [show lyric_writer maxC fin (v :: rest) =
                lyric_writer maxC (fin + 1) rest by
              simp [lyric_writer, hv, hfin]]
          rw [hw, writtenOf_cons, if_pos hv, countBatchItems_cons, if_pos hv]
          simp
    · rw [if_neg hv] at hcount
      have hcount' : countSentinels rest = maxC - fin := by omega
      obtain ⟨pre, post, heq, hcp, hw⟩ := ih fin hlt hcount'
      refine ⟨v :: pre, post, by simp [heq], ?_, ?_⟩
      · rw [countSentinels_cons, if_neg hv]
        omega
      · rw [show lyric_writer maxC fin (v :: rest) =
              ⟨write_data (pyIter v) ++ (lyric_writer maxC fin rest).written,
               (lyric_writer maxC fin rest).calls + 1,
               (lyric_writer maxC fin rest).rest⟩ by
            simp [lyric_writer, hv]]
        rw [hw, writtenOf_cons, if_neg hv, countBatchItems_cons, if_neg hv]

/-- When the final sentinel is the last stream item (as causal scheduling
guarantees: each worker's sentinel follows all of its batches), the writer
consumes the entire stream. -/
theorem lyric_writer_full (maxC : Nat) (items : List PyVal) (h0 : 0 < maxC)
    (hcount : countSentinels items = maxC)
    (hlast : items.getLast? = some sentinelVal) :
    ∃ pre, items = pre ++ [sentinelVal] ∧
      countSentinels pre = maxC - 1 ∧
      lyric_writer maxC 0 items = ⟨writtenOf pre, countBatchItems pre, []⟩ := by
  obtain ⟨pre, post, heq, hcp, hw⟩ :=
    lyric_writer_split maxC items 0 h0 (by simpa using hcount)
  have hpost : post = [] := by
    by_contra hne
    have hcadd : countSentinels post = 0 := by
      rw [heq, countSentinels_append, countSentinels_cons] at hcount
      have : pyEq sentinelVal sentinelVal = true := by
        exact (pyEq_sentinel_iff sentinelVal).mpr rfl
      rw [if_pos this] at hcount
      omega
    have hlast' : post.getLast? = some sentinelVal := by
      rw [heq] at hlast
      rw [show pre ++ sentinelVal :: post = (pre ++ [sentinelVal]) ++ post by simp] at hlast
      rwa [List.getLast?_append_of_ne_nil (pre ++ [sentinelVal]) hne] at hlast
    have hmem : sentinelVal ∈ post := List.mem_of_mem_getLast? hlast'
    have : 0 < countSentinels post := by
      unfold countSentinels
      rw [List.countP_pos_iff]
      exact ⟨sentinelVal, hmem, (pyEq_sentinel_iff sentinelVal).mpr rfl⟩
    omega
  subst hpost
  exact ⟨pre, by simpa using heq, by simpa using hcp, hw⟩

/-- Number of output lines one result-queue value contributes when the
writer handles it. -/
def valWriteLen (v : PyVal) : Nat :=
  if pyEq v sentinelVal then 0 else (write_data (pyIter v)).length

theorem writtenOf_length (l : List PyVal) :
    (writtenOf l).length = (l.map valWriteLen).sum := by
  induction l with
  | nil => rfl
  | cons v rest ih =>
    rw [writtenOf_cons]
    by_cases hv : pyEq v sentinelVal <;>
      simp [hv, valWriteLen, ih]

theorem filterMap_valWriteLen_sum (fetch : String → Option (List String))
    (p : List String) :
    ((p.filterMap (fun u => (fetch u).map PyVal.list)).map valWriteLen).sum =
      (p.map (foundLineCount fetch)).sum := by
  induction p with
  | nil => rfl
  | cons u rest ih =>
    rw [List.filterMap_cons]
    cases h : fetch u with
    | none => simp [h, ih, foundLineCount]
    | some lyrics =>
      simp [h, ih, foundLineCount, valWriteLen, pyEq_list_sentinel, pyIter]

/-- One worker contributes exactly one sentinel to the result queue. -/
theorem worker_output_sentinels (fetch : String → Option (List String))
    (p : List String) (hp : QUEUE_SENTINEL ∉ p) :
    countSentinels (get_song_lyrics fetch (p ++ [QUEUE_SENTINEL])) = 1 := by
  rw [show p ++ [QUEUE_SENTINEL] = p ++ QUEUE_SENTINEL :: [] from rfl,
    get_song_lyrics_eq fetch p [] hp, countSentinels_append]
  have h0 : countSentinels (p.filterMap (fun u => (fetch u).map PyVal.list)) = 0 := by
    unfold countSentinels
    rw [List.countP_eq_zero]
    intro v hv
    obtain ⟨u, _, hu⟩ := List.mem_filterMap.mp hv
    cases h : fetch u with
    | none => rw [h] at hu; exact absurd hu (by simp)
    | some lyrics =>
      rw [h] at hu
      simp only [Option.map_some'] at hu
      rw [← Option.some_inj.mp hu, pyEq_list_sentinel]
      simp
  rw [h0]
  rfl

theorem worker_output_sum (fetch : String → Option (List String))
    (p : List String) (hp : QUEUE_SENTINEL ∉ p) :
    ((get_song_lyrics fetch (p ++ [QUEUE_SENTINEL])).map valWriteLen).sum =
      (p.map (foundLineCount fetch)).sum := by
  rw [show p ++ [QUEUE_SENTINEL] = p ++ QUEUE_SENTINEL :: [] from rfl,
    get_song_lyrics_eq fetch p [] hp, List.map_append, List.sum_append,
    filterMap_valWriteLen_sum]
  simp [valWriteLen, sentinelVal, pyEq]

/-- The combined result-queue traffic of a pool of workers, one output list
per worker (src/lyricpass.py line 284 starts one get_song_lyrics task per
pool slot; each receives some of the urls and exactly one sentinel). -/
def poolOutputs (fetch : String → Option (List String))
    (parts : List (List String)) : List (List PyVal) :=
  parts.map (fun p => get_song_lyrics fetch (p ++ [QUEUE_SENTINEL]))

theorem poolOutputs_sentinels (fetch : String → Option (List String))
    (parts : List (List String)) (hns : ∀ p ∈ parts, QUEUE_SENTINEL ∉ p) :
    countSentinels (poolOutputs fetch parts).flatten = parts.length := by
  unfold countSentinels poolOutputs
  rw [List.countP_flatten]
  rw [show (List.map (List.countP fun v => pyEq v sentinelVal)
        (List.map (fun p => get_song_lyrics fetch (p ++ [QUEUE_SENTINEL])) parts)) =
      parts.map (fun p =>
        countSentinels (get_song_lyrics fetch (p ++ [QUEUE_SENTINEL]))) by
    rw [List.map_map]; rfl]
  induction parts with
  | nil => rfl
  | cons p rest ih =>
    have hp : QUEUE_SENTINEL ∉ p := hns p (List.mem_cons_self p rest)
    have hrest : ∀ q ∈ rest, QUEUE_SENTINEL ∉ q :=
      fun q hq => hns q (List.mem_cons_of_mem p hq)
    simp only [List.map_cons, List.sum_cons, List.length_cons,
      worker_output_sentinels fetch p hp, ih hrest]
    omega

theorem poolOutputs_sum (fetch : String → Option (List String))
    (parts : List (List String)) (hns : ∀ p ∈ parts, QUEUE_SENTINEL ∉ p) :
    (((poolOutputs fetch parts).flatten).map valWriteLen).sum =
      (parts.map (fun p => (p.map (foundLineCount fetch)).sum)).sum := by
  unfold poolOutputs
  rw [List.map_flatten, List.sum_flatten, List.map_map, List.map_map]
  induction parts with
  | nil => rfl
  | cons p rest ih =>
    have hp : QUEUE_SENTINEL ∉ p := hns p (List.mem_cons_self p rest)
    have hrest : ∀ q ∈ rest, QUEUE_SENTINEL ∉ q :=
      fun q hq => hns q (List.mem_cons_of_mem p hq)
    simp only [List.map_cons, List.sum_cons, Function.comp_apply,
      worker_output_sum fetch p hp, ih hrest]

theorem countBatchItems_append (l₁ l₂ : List PyVal) :
    countBatchItems (l₁ ++ l₂) = countBatchItems l₁ + countBatchItems l₂ := by
  simp [countBatchItems, List.countP_append]

/-- A permutation of the pool traffic carries exactly one sentinel per
worker. -/
theorem perm_pool_count (fetch : String → Option (List String))
    (parts : List (List String)) (N : Nat) (items : List PyVal)
    (hN : parts.length = N) (hns : ∀ p ∈ parts, QUEUE_SENTINEL ∉ p)
    (hperm : items.Perm (poolOutputs fetch parts).flatten) :
    countSentinels items = N := by
  unfold countSentinels
  rw [List.Perm.countP_eq _ hperm]
  have h := poolOutputs_sentinels fetch parts hns
  unfold countSentinels at h
  rw [h, hN]

/-- The raw lyric file after one scrape_lyrics run: write_data opens the
file in append mode, so it exists on disk exactly when the writer performed
at least one write_data call (src/lyricpass.py lines 194-201, 214-215). -/
def rawLyricFile (maxC : Nat) (items : List PyVal) : Option (List String) :=
  let r := lyric_writer maxC 0 items
  if r.calls = 0 then none else some r.written

/-- main (src/lyricpass.py line 317): `open(lyric_file)` with the default
read mode; a missing file raises FileNotFoundError and aborts the process
before the wordlist is written. -/
def readRawLyrics : Option (List String) → Except String (List String)
  | none => Except.error "FileNotFoundError"
  | some lines => Except.ok lines

/-- With the always-not-found fetch every worker forwards only its
sentinel. -/
theorem poolOutputs_none_all_sentinel (parts : List (List String))
    (hns : ∀ p ∈ parts, QUEUE_SENTINEL ∉ p) :
    ∀ v ∈ (poolOutputs (fun _ => none) parts).flatten, v = sentinelVal := by
  intro v hv
  obtain ⟨out, hout, hvmem⟩ := List.mem_flatten.mp hv
  obtain ⟨p, hp, hpe⟩ := List.mem_map.mp hout
  rw [show p ++ [QUEUE_SENTINEL] = p ++ QUEUE_SENTINEL :: [] from rfl,
    get_song_lyrics_eq (fun _ => none) p [] (hns p hp)] at hpe
  rw [← hpe] at hvmem
  simp at hvmem
  exact hvmem

-- ### Claim theorems

def fetchEx : String → Option (List String) := fun u =>
  if u = "url1" then some ["la", "", "lb"] else none

def urlA : String := "url1"

def urlB : String := "url2"

def urlC : String := "url3"

/-- C1: the producer puts each URL on the work queue in input order and
then exactly N sentinels: the enqueued sequence is exactly the input URL
list followed by N copies of QUEUE_SENTINEL. -/
theorem producer_enqueues_urls_then_sentinels (urls : List String) (n : Nat) :
    producer urls n = urls ++ List.replicate n QUEUE_SENTINEL := by
  rw [producer, producerPutUrls_eq, producerPutSentinels_eq]

/-- C2: a worker that receives a sentinel forwards exactly one sentinel and
terminates without touching later items; a not-found URL contributes
nothing and the loop continues; a found URL contributes exactly its batch.
Consequently a worker's whole trace is the batches of its found urls
followed by one sentinel. -/
theorem worker_sentinel_batches_behaviour
    (fetch : String → Option (List String)) (u : String) (rest : List String)
    (pre post : List String) (hu : u ≠ QUEUE_SENTINEL)
    (hpre : QUEUE_SENTINEL ∉ pre) :
    get_song_lyrics fetch (QUEUE_SENTINEL :: rest) = [sentinelVal] ∧
    (fetch u = none →
      get_song_lyrics fetch (u :: rest) = get_song_lyrics fetch rest) ∧
    (∀ lyrics, fetch u = some lyrics →
      get_song_lyrics fetch (u :: rest) =
        PyVal.list lyrics :: get_song_lyrics fetch rest) ∧
    get_song_lyrics fetch (pre ++ QUEUE_SENTINEL :: post) =
      pre.filterMap (fun w => (fetch w).map PyVal.list) ++ [sentinelVal] := by
  refine ⟨by simp [get_song_lyrics], ?_, ?_, get_song_lyrics_eq fetch pre post hpre⟩
  · intro h
    simp [get_song_lyrics, hu, h]
  · intro lyrics h
    simp [get_song_lyrics, hu, h]

theorem worker_sentinel_batches_behaviour_witness :
    get_song_lyrics fetchEx ([urlA] ++ QUEUE_SENTINEL :: []) =
      [urlA].filterMap (fun w => (fetchEx w).map PyVal.list) ++ [sentinelVal] ∧
    get_song_lyrics fetchEx (QUEUE_SENTINEL :: []) = [sentinelVal] := by
  have h := worker_sentinel_batches_behaviour fetchEx urlB [] [urlA] []
    (by decide) (by decide)
  exact ⟨h.2.2.2, h.1⟩

def itemsEx : List PyVal :=
  [PyVal.list ["la", "", "lb"], sentinelVal, PyVal.list ["x"], sentinelVal]

/-- C3: on a stream with exactly maxC sentinels the writer loop ends
exactly at the maxC-th sentinel and not before: the consumed prefix is
everything up to that sentinel, every earlier batch is written, and the
suffix after it is untouched. -/
theorem writer_terminates_at_nth_sentinel (maxC : Nat) (items : List PyVal)
    (h0 : 0 < maxC) (hcount : countSentinels items = maxC) :
    ∃ pre post,
      items = pre ++ sentinelVal :: post ∧
      countSentinels pre = maxC - 1 ∧
      lyric_writer maxC 0 items =
        ⟨writtenOf pre, countBatchItems pre, post⟩ := by
  simpa using lyric_writer_split maxC items 0 h0 (by simpa using hcount)

theorem writer_terminates_at_nth_sentinel_witness :
    ∃ pre post,
      itemsEx = pre ++ sentinelVal :: post ∧
      countSentinels pre = 2 - 1 ∧
      lyric_writer 2 0 itemsEx =
        ⟨writtenOf pre, countBatchItems pre, post⟩ :=
  writer_terminates_at_nth_sentinel 2 itemsEx (by decide) (by decide)

/-- C4 (amended): the number of lines the writer appends to the raw file
equals, over every found URL, the number of non-empty batch lines (empty
lines are skipped by write_data), for any worker count and any causal
ordering of the result queue. -/
theorem writer_total_written_lines
    (fetch : String → Option (List String)) (parts : List (List String))
    (N : Nat) (items : List PyVal)
    (hN : parts.length = N) (h0 : 0 < N)
    (hns : ∀ p ∈ parts, QUEUE_SENTINEL ∉ p)
    (hperm : items.Perm (poolOutputs fetch parts).flatten)
    (hlast : items.getLast? = some sentinelVal) :
    (lyric_writer N 0 items).written.length =
      (parts.map (fun p => (p.map (foundLineCount fetch)).sum)).sum := by
  have hcount := perm_pool_count fetch parts N items hN hns hperm
  obtain ⟨pre, heq, hcp, hw⟩ := lyric_writer_full N items h0 hcount hlast
  rw [hw]
  show (writtenOf pre).length = _
  rw [writtenOf_length]
  have h1 : (items.map valWriteLen).sum = (pre.map valWriteLen).sum := by
    rw [heq, List.map_append, List.sum_append]
    simp [valWriteLen, sentinelVal, pyEq]
  have h2 : (items.map valWriteLen).sum =
      (((poolOutputs fetch parts).flatten).map valWriteLen).sum :=
    (hperm.map valWriteLen).sum_eq
  rw [← h1, h2, poolOutputs_sum fetch parts hns]

theorem writer_total_written_lines_witness :
    (lyric_writer 2 0 [sentinelVal, PyVal.list ["la", "", "lb"], sentinelVal]).written.length =
      ([[urlA], [urlB, urlC]].map (fun p => (p.map (foundLineCount fetchEx)).sum)).sum :=
  writer_total_written_lines fetchEx [[urlA], [urlB, urlC]] 2
    [sentinelVal, PyVal.list ["la", "", "lb"], sentinelVal]
    (by decide) (by decide) (by decide) (by decide) (by decide)

/-- C4 counterexample: with one worker and one found URL whose batch is
["la", "", "lb"] (3 lines, one empty), the writer appends 2 lines, not 3:
the written count differs from the sum of batch lengths. -/
theorem written_lines_ne_batch_length_counterexample :
    fetchEx urlA = some ["la", "", "lb"] ∧
    (lyric_writer 1 0
        (get_song_lyrics fetchEx [urlA, QUEUE_SENTINEL])).written.length ≠
      (["la", "", "lb"] : List String).length := by
  decide

/-- C5: for any worker count N ≥ 1 and any url distribution (any M ≥ 0),
the writer receives exactly N sentinels, and the writer loop breaks having
consumed the entire result stream: the sentinel protocol terminates the
pipeline. -/
theorem pipeline_delivers_n_sentinels_and_terminates
    (fetch : String → Option (List String)) (parts : List (List String))
    (N : Nat) (items : List PyVal)
    (hN : parts.length = N) (h0 : 0 < N)
    (hns : ∀ p ∈ parts, QUEUE_SENTINEL ∉ p)
    (hperm : items.Perm (poolOutputs fetch parts).flatten)
    (hlast : items.getLast? = some sentinelVal) :
    countSentinels items = N ∧ (lyric_writer N 0 items).rest = [] := by
  have hcount := perm_pool_count fetch parts N items hN hns hperm
  obtain ⟨pre, heq, hcp, hw⟩ := lyric_writer_full N items h0 hcount hlast
  exact ⟨hcount, by rw [hw]⟩

theorem pipeline_delivers_n_sentinels_and_terminates_witness :
    countSentinels [sentinelVal, sentinelVal] = 2 ∧
    (lyric_writer 2 0 [sentinelVal, sentinelVal]).rest = [] :=
  pipeline_delivers_n_sentinels_and_terminates (fun _ => none) [[urlA], []] 2
    [sentinelVal, sentinelVal]
    (by decide) (by decide) (by decide) (by decide) (by decide)

/-- C8: when every fetch reports not-found the pipeline terminates, but the
writer performs zero write_data calls, so the raw lyric file is never
created and main's subsequent open() fails with FileNotFoundError instead
of exiting normally with an empty file and an (empty) wordlist. -/
theorem all_not_found_never_creates_raw_file
    (parts : List (List String)) (N : Nat) (items : List PyVal)
    (hN : parts.length = N) (h0 : 0 < N)
    (hns : ∀ p ∈ parts, QUEUE_SENTINEL ∉ p)
    (hperm : items.Perm (poolOutputs (fun _ => none) parts).flatten)
    (hlast : items.getLast? = some sentinelVal) :
    (lyric_writer N 0 items).calls = 0 ∧
    (lyric_writer N 0 items).rest = [] ∧
    rawLyricFile N items = none ∧
    readRawLyrics (rawLyricFile N items) = Except.error "FileNotFoundError" := by
  have hcount := perm_pool_count (fun _ => none) parts N items hN hns hperm
  obtain ⟨pre, heq, hcp, hw⟩ := lyric_writer_full N items h0 hcount hlast
  have hall : ∀ v ∈ items, v = sentinelVal := by
    intro v hv
    exact poolOutputs_none_all_sentinel parts hns v (hperm.mem_iff.mp hv)
  have hcb : countBatchItems pre = 0 := by
    have : ∀ v ∈ pre, v = sentinelVal := by
      intro v hv
      exact hall v (by rw [heq]; exact List.mem_append_left _ hv)
    unfold countBatchItems
    rw [List.countP_eq_zero]
    intro v hv
    rw [this v hv, (pyEq_sentinel_iff sentinelVal).mpr rfl]
    simp
  have hcalls : (lyric_writer N 0 items).calls = 0 := by rw [hw]; exact hcb
  have hfile : rawLyricFile N items = none := by
    unfold rawLyricFile
    rw [if_pos hcalls]
  exact ⟨hcalls, by rw [hw], hfile, by rw [hfile]; rfl⟩

theorem all_not_found_never_creates_raw_file_witness :
    (lyric_writer 1 0 [sentinelVal]).calls = 0 ∧
    (lyric_writer 1 0 [sentinelVal]).rest = [] ∧
    rawLyricFile 1 [sentinelVal] = none ∧
    readRawLyrics (rawLyricFile 1 [sentinelVal]) =
      Except.error "FileNotFoundError" :=
  all_not_found_never_creates_raw_file [["unused"]] 1 [sentinelVal]
    (by decide) (by decide) (by decide) (by decide) (by decide)

/-- C9: the sentinel value is disjoint from every queue payload: a URL
built by build_urls (which always starts with the site prefix) is never the
sentinel string, and a line batch (a Python list) never compares equal to
the sentinel (a Python string), so the worker's and writer's sentinel
checks fire only for genuine sentinels. -/
theorem sentinel_disjoint_from_payloads (ids : List String) (u : String)
    (hu : u ∈ build_urls ids) (l : List String) :
    u ≠ QUEUE_SENTINEL ∧ pyEq (PyVal.list l) sentinelVal = false := by
  refine ⟨?_, pyEq_list_sentinel l⟩
  obtain ⟨id, _, hid⟩ := List.mem_map.mp hu
  intro h
  have hlen := congrArg String.length h
  rw [← hid, String.length_append, String.length_append] at hlen
  have hsite : SITE.length = 23 := rfl
  have hmid : String.length ("db-print.php?id=") = 16 := rfl
  have hsent : QUEUE_SENTINEL.length = 7 := rfl
  rw [hsite, hmid, hsent] at hlen
  omega

theorem sentinel_disjoint_from_payloads_witness :
    (SITE ++ "db-print.php?id=" ++ urlA) ≠ QUEUE_SENTINEL ∧
    pyEq (PyVal.list ["la"]) sentinelVal = false :=
  sentinel_disjoint_from_payloads [urlA] (SITE ++ "db-print.php?id=" ++ urlA)
    (by simp [build_urls]) ["la"]

-- ### The passphrase normalisation (make_phrases, src/lyricpass.py 89-135)

/-- Python str.lower as used on line 101, modelled on the ASCII fragment:
an upper-case ASCII letter (code 65-90) moves down by 32, everything else
is unchanged.  (Unicode case folding beyond ASCII lives in CPython's
tables, outside this embedding.) -/
def pyLower (c : Char) : Char :=
  if 65 ≤ c.toNat ∧ c.toNat ≤ 90 then Char.ofNat (c.toNat + 32) else c

/-- re.sub(r"[-_]", " ", ...) on line 101: '-' (code 45) and '_' (code 95)
become a space. -/
def dashToSpace (c : Char) : Char :=
  if c.toNat = 45 ∨ c.toNat = 95 then ' ' else c

/-- remove_accents (src/lyricpass.py lines 84-86): NFKD-normalise, then
drop combining marks.  Every ASCII code point is NFKD-fixed and none is
combining, so on the ASCII fragment the function is the identity; the model
restricts to that fragment (all inputs exercised by the spec's scenarios,
and every output of the cleaning pipeline itself, are ASCII). -/
def remove_accents (s : List Char) : List Char := s

/-- The character class kept by the allowed_chars filter on line 97 /
line 101: letters, digits, space, apostrophe (39) and ampersand (38). -/
def isAllowedChar (c : Char) : Bool :=
  (97 ≤ c.toNat && c.toNat ≤ 122) || (65 ≤ c.toNat && c.toNat ≤ 90) ||
    (48 ≤ c.toNat && c.toNat ≤ 57) || c.toNat == 32 || c.toNat == 39 ||
    c.toNat == 38

/-- re.sub(r"\s\s+", " ", line) on line 104: every maximal run of two or
more whitespace characters becomes a single space.  After the
allowed-character filter the only whitespace character left is ' '. -/
def collapseSpaces : List Char → List Char
  | [] => []
  | [c] => [c]
  | c :: d :: rest =>
    if c = ' ' ∧ d = ' ' then collapseSpaces (d :: rest)
    else c :: collapseSpaces (d :: rest)

/-- Lines 99-104 of make_phrases: lowercase, turn dashes and underscores
into spaces, strip diacritics, drop disallowed characters, collapse
whitespace runs. -/
def cleanLine (line : List Char) : List Char :=
  collapseSpaces (List.filter isAllowedChar
    (remove_accents (List.map dashToSpace (List.map pyLower line))))

/-- Two characters belong to the same textwrap chunk exactly when they
agree on being a space. -/
def chunkPred (c : Char) : Char → Bool := fun d => (d == ' ') == (c == ' ')

/-- textwrap's chunk splitter, restricted to the inputs the program feeds
it (no tabs, no hyphens, space as the only whitespace): the maximal runs
of spaces and of non-spaces, in order.  Implemented with a fuel argument
(one unit per chunk, so the string length always suffices). -/
def splitChunksF : Nat → List Char → List (List Char)
  | 0, _ => []
  | _ + 1, [] => []
  | fuel + 1, c :: rest =>
    (c :: rest.takeWhile (chunkPred c)) ::
      splitChunksF fuel (rest.dropWhile (chunkPred c))

def splitChunks (s : List Char) : List (List Char) := splitChunksF s.length s

/-- Is a chunk pure whitespace (chunk.strip() == in Python)? -/
def isWsChunk (ch : List Char) : Bool := ch.all (fun c => c == ' ')

/-- The greedy inner loop of textwrap._wrap_chunks: move chunks onto the
current line while the accumulated length stays within the width; return
the taken chunks and the remainder. -/
def takeChunks (width : Nat) : Nat → List (List Char) → List (List Char) × List (List Char)
  | _, [] => ([], [])
  | cur, ch :: rest =>
    if cur + ch.length ≤ width then
      let p := takeChunks width (cur + ch.length) rest
      (ch :: p.1, p.2)
    else ([], ch :: rest)

/-- drop_whitespace=True: whitespace at the end of a line is dropped. -/
def dropTrailingWs (tk : List (List Char)) : List (List Char) :=
  match tk.getLast? with
  | some ch => if isWsChunk ch then tk.dropLast else tk
  | none => tk

/-- textwrap._handle_long_word with break_long_words=False: a chunk longer
than the width is put on a line of its own when the current line is empty,
and otherwise left for the next line. -/
def handleLong (width : Nat) (tk rm : List (List Char)) :
    List (List Char) × List (List Char) :=
  match tk, rm with
  | [], long :: rm2 =>
    if width < long.length then ([long], rm2) else ([], long :: rm2)
  | tk, rm => (tk, rm)

/-- One outer iteration of textwrap._wrap_chunks per fuel unit: drop a
leading whitespace chunk once a line has been emitted, greedily fill the
line, handle an over-long word, drop trailing whitespace, and emit the
line if non-empty.  Every iteration consumes at least one chunk, so fuel
equal to the number of chunks computes the full result. -/
def wrapChunksAux (width : Nat) : Nat → Bool → List (List Char) → List (List Char)
  | 0, _, _ => []
  | _ + 1, _, [] => []
  | fuel + 1, hasLines, ch0 :: rest0 =>
    let chunks := if hasLines && isWsChunk ch0 then rest0 else ch0 :: rest0
    let p := takeChunks width 0 chunks
    let q := handleLong width p.1 p.2
    let line := dropTrailingWs q.1
    if line.isEmpty then wrapChunksAux width fuel hasLines q.2
    else line.flatten :: wrapChunksAux width fuel true q.2

/-- textwrap.wrap(text, width, break_long_words=False) as called on
line 129, for the already-cleaned text the program passes it. -/
def textwrap_wrap (width : Nat) (s : List Char) : List (List Char) :=
  wrapChunksAux width (splitChunks s).length false (splitChunks s)

/-- The --min / --max configuration (src/lyricpass.py lines 61-66,
defaults 8 and 40). -/
structure Args where
  min : Nat
  max : Nat
deriving DecidableEq, Repr

/-- make_phrases (src/lyricpass.py lines 89-135): clean the raw line, then
keep it if its length is within [min, max], word-wrap it if it is longer
than max, and drop it if it is shorter than min.  (The apostrophe /
and-ampersand duplication blocks are commented out in the source; the
clean_lines list is the singleton [line].) -/
def make_phrases (line : List Char) (args : Args) : List (List Char) :=
  let cl := cleanLine line
  if cl.length < args.min then []
  else if args.max < cl.length then textwrap_wrap args.max cl
  else [cl]

-- ### Lemmas about the cleaning stage

/-- No two adjacent spaces anywhere in the list. -/
def noDoubleSpace : List Char → Bool
  | c :: d :: rest => !(c == ' ' && d == ' ') && noDoubleSpace (d :: rest)
  | _ => true

theorem char_toNat_inj {a b : Char} (h : a.toNat = b.toNat) : a = b := by
  apply Char.ext
  exact UInt32.toNat.inj h

theorem eq_space_of_toNat {c : Char} (h : c.toNat = 32) : c = ' ' :=
  char_toNat_inj (by rw [h]; rfl)

theorem toNat_of_eq_space {c : Char} (h : c = ' ') : c.toNat = 32 := by
  rw [h]; rfl

theorem collapseSpaces_head : ∀ (c : Char) (l : List Char),
    (collapseSpaces (c :: l)).head? = some c := by
  intro c l
  induction l generalizing c with
  | nil => rfl
  | cons d rest ih =>
    by_cases h : c = ' ' ∧ d = ' '
    · rw [show collapseSpaces (c :: d :: rest) = collapseSpaces (d :: rest) by
        simp [collapseSpaces, h]]
      rw [ih d, h.1, h.2]
    · rw [show collapseSpaces (c :: d :: rest) = c :: collapseSpaces (d :: rest) by
        simp [collapseSpaces, h]]
      rfl

theorem noDoubleSpace_collapseSpaces : ∀ l : List Char,
    noDoubleSpace (collapseSpaces l) = true := by
  intro l
  induction l with
  | nil => rfl
  | cons c t ih =>
    cases t with
    | nil => rfl
    | cons d rest =>
      by_cases h : c = ' ' ∧ d = ' '
      · rw [show collapseSpaces (c :: d :: rest) = collapseSpaces (d :: rest) by
          simp [collapseSpaces, h]]
        exact ih
      · rw [show collapseSpaces (c :: d :: rest) = c :: collapseSpaces (d :: rest) by
          simp [collapseSpaces, h]]
        cases hcd : collapseSpaces (d :: rest) with
        | nil => rfl
        | cons e rest2 =>
          have he : e = d := by
            have h0 := collapseSpaces_head d rest
            rw [hcd] at h0
            exact Option.some_inj.mp h0
          subst he
          have hnd : noDoubleSpace (e :: rest2) = true := by rw [← hcd]; exact ih
          have hcs : (c == ' ' && e == ' ') = false := by
            rcases Decidable.not_and_iff_or_not.mp h with hc | hd
            · simp [hc]
            · simp [hd]
          rw [show noDoubleSpace (c :: e :: rest2) =
              (!(c == ' ' && e == ' ') && noDoubleSpace (e :: rest2)) from rfl]
          rw [hcs, hnd]
          rfl

theorem collapseSpaces_eq_self : ∀ l : List Char,
    noDoubleSpace l = true → collapseSpaces l = l := by
  intro l
  induction l with
  | nil => intro _; rfl
  | cons c t ih =>
    intro h
    cases t with
    | nil => rfl
    | cons d rest =>
      have h1 : (c == ' ' && d == ' ') = false := by
        rw [show noDoubleSpace (c :: d :: rest) =
            (!(c == ' ' && d == ' ') && noDoubleSpace (d :: rest)) from rfl] at h
        rcases Bool.and_eq_true_iff.mp h with ⟨hne, _⟩
        cases hcd : (c == ' ' && d == ' ') with
        | false => rfl
        | true => rw [hcd] at hne; exact absurd hne (by decide)
      have h2 : noDoubleSpace (d :: rest) = true := by
        rw [show noDoubleSpace (c :: d :: rest) =
            (!(c == ' ' && d == ' ') && noDoubleSpace (d :: rest)) from rfl] at h
        exact (Bool.and_eq_true_iff.mp h).2
      have hne : ¬(c = ' ' ∧ d = ' ') := by
        intro ⟨hc, hd⟩
        rw [hc, hd] at h1
        simp at h1
      rw [show collapseSpaces (c :: d :: rest) = c :: collapseSpaces (d :: rest) by
        simp [collapseSpaces, hne]]
      rw [ih h2]

theorem collapseSpaces_subset : ∀ (l : List Char) (c : Char),
    c ∈ collapseSpaces l → c ∈ l := by
  intro l
  induction l with
  | nil => intro c h; exact absurd h (by simp [collapseSpaces])
  | cons a t ih =>
    intro c h
    cases t with
    | nil => exact h
    | cons d rest =>
      by_cases hsp : a = ' ' ∧ d = ' '
      · rw [show collapseSpaces (a :: d :: rest) = collapseSpaces (d :: rest) by
          simp [collapseSpaces, hsp]] at h
        exact List.mem_cons_of_mem a (ih c h)
      · rw [show collapseSpaces (a :: d :: rest) = a :: collapseSpaces (d :: rest) by
          simp [collapseSpaces, hsp]] at h
        rcases List.mem_cons.mp h with h | h
        · exact h ▸ List.mem_cons_self a _
        · exact List.mem_cons_of_mem a (ih c h)

theorem noDoubleSpace_tail {c : Char} {t : List Char}
    (h : noDoubleSpace (c :: t) = true) : noDoubleSpace t = true := by
  cases t with
  | nil => rfl
  | cons d rest =>
    rw [show noDoubleSpace (c :: d :: rest) =
        (!(c == ' ' && d == ' ') && noDoubleSpace (d :: rest)) from rfl] at h
    exact (Bool.and_eq_true_iff.mp h).2

theorem noDoubleSpace_append_right : ∀ (l₁ l₂ : List Char),
    noDoubleSpace (l₁ ++ l₂) = true → noDoubleSpace l₂ = true := by
  intro l₁
  induction l₁ with
  | nil => intro l₂ h; exact h
  | cons c t ih => intro l₂ h; exact ih l₂ (noDoubleSpace_tail h)

theorem noDoubleSpace_append_left : ∀ (l₁ l₂ : List Char),
    noDoubleSpace (l₁ ++ l₂) = true → noDoubleSpace l₁ = true := by
  intro l₁
  induction l₁ with
  | nil => intro _ _; rfl
  | cons c t ih =>
    intro l₂ h
    cases t with
    | nil => rfl
    | cons d rest =>
      have hh : noDoubleSpace (c :: d :: (rest ++ l₂)) = true := h
      rw [show noDoubleSpace (c :: d :: (rest ++ l₂)) =
          (!(c == ' ' && d == ' ') && noDoubleSpace (d :: (rest ++ l₂))) from rfl] at hh
      rcases Bool.and_eq_true_iff.mp hh with ⟨h1, h2⟩
      rw [show noDoubleSpace (c :: d :: rest) =
          (!(c == ' ' && d == ' ') && noDoubleSpace (d :: rest)) from rfl]
      rw [h1, ih l₂ h2]
      rfl

theorem noDoubleSpace_within {l₁ l₂ : List Char} (h : l₁ <:+: l₂)
    (hl : noDoubleSpace l₂ = true) : noDoubleSpace l₁ = true := by
  obtain ⟨s, t, hst⟩ := h
  subst hst
  exact noDoubleSpace_append_left l₁ t
    (noDoubleSpace_append_right s (l₁ ++ t) (by simpa using hl))

theorem pyLower_toNat_of_upper {c : Char}
    (h : 65 ≤ c.toNat ∧ c.toNat ≤ 90) : (pyLower c).toNat = c.toNat + 32 := by
  have hvalid : (c.toNat + 32).isValidChar := Or.inl (by omega)
  rw [pyLower, if_pos h]
  simp [Char.ofNat, hvalid]
  rfl

theorem pyLower_eq_self {c : Char}
    (h : ¬(65 ≤ c.toNat ∧ c.toNat ≤ 90)) : pyLower c = c := by
  rw [pyLower, if_neg h]

theorem pyLower_not_upper (c : Char) :
    ¬(65 ≤ (pyLower c).toNat ∧ (pyLower c).toNat ≤ 90) := by
  by_cases h : 65 ≤ c.toNat ∧ c.toNat ≤ 90
  · rw [pyLower_toNat_of_upper h]
    omega
  · rw [pyLower_eq_self h]
    exact h

/-- A character that can appear in a cleaned line: in the allowed class and
not an upper-case letter. -/
def cleanChar (c : Char) : Prop :=
  isAllowedChar c = true ∧ ¬(65 ≤ c.toNat ∧ c.toNat ≤ 90)

/-- A cleaned string: all characters clean, and no two adjacent spaces. -/
def CleanOK (s : List Char) : Prop :=
  (∀ c ∈ s, cleanChar c) ∧ noDoubleSpace s = true

theorem isAllowedChar_ranges {c : Char} (h : isAllowedChar c = true) :
    (97 ≤ c.toNat ∧ c.toNat ≤ 122) ∨ (65 ≤ c.toNat ∧ c.toNat ≤ 90) ∨
      (48 ≤ c.toNat ∧ c.toNat ≤ 57) ∨ c.toNat = 32 ∨ c.toNat = 39 ∨
      c.toNat = 38 := by
  simp only [isAllowedChar, Bool.or_eq_true, Bool.and_eq_true,
    decide_eq_true_eq, beq_iff_eq] at h
  omega

theorem cleanChar_pyLower {c : Char} (h : cleanChar c) : pyLower c = c :=
  pyLower_eq_self h.2

theorem cleanChar_dashToSpace {c : Char} (h : cleanChar c) :
    dashToSpace c = c := by
  rcases isAllowedChar_ranges h.1 with h1 | h1 | h1 | h1 | h1 | h1 <;>
    · rw [dashToSpace, if_neg (by omega)]

theorem dashToSpace_not_upper (c : Char)
    (h : ¬(65 ≤ c.toNat ∧ c.toNat ≤ 90)) :
    ¬(65 ≤ (dashToSpace c).toNat ∧ (dashToSpace c).toNat ≤ 90) := by
  by_cases hd : c.toNat = 45 ∨ c.toNat = 95
  · rw [dashToSpace, if_pos hd]
    intro hcon
    rw [toNat_of_eq_space rfl] at hcon
    omega
  · rwa [dashToSpace, if_neg hd]

theorem cleanLine_cleanOK (line : List Char) : CleanOK (cleanLine line) := by
  constructor
  · intro c hc
    have hc1 := collapseSpaces_subset _ c hc
    rw [List.mem_filter] at hc1
    obtain ⟨hmem, hall⟩ := hc1
    refine ⟨hall, ?_⟩
    unfold remove_accents at hmem
    rw [List.map_map] at hmem
    obtain ⟨a, _, ha⟩ := List.mem_map.mp hmem
    rw [← ha]
    exact dashToSpace_not_upper (pyLower a) (pyLower_not_upper a)
  · exact noDoubleSpace_collapseSpaces _

theorem cleanLine_eq_self {s : List Char} (h : CleanOK s) : cleanLine s = s := by
  unfold cleanLine remove_accents
  have h1 : List.map pyLower s = s :=
    (List.map_congr_left
      (fun a ha => cleanChar_pyLower (h.1 a ha))).trans (List.map_id s)
  rw [h1]
  have h2 : List.map dashToSpace s = s :=
    (List.map_congr_left
      (fun a ha => cleanChar_dashToSpace (h.1 a ha))).trans (List.map_id s)
  rw [h2]
  have h3 : List.filter isAllowedChar s = s :=
    List.filter_eq_self.mpr (fun a ha => (h.1 a ha).1)
  rw [h3]
  exact collapseSpaces_eq_self s h.2

theorem CleanOK_infix {l₁ l₂ : List Char} (hinf : l₁ <:+: l₂)
    (h : CleanOK l₂) : CleanOK l₁ := by
  refine ⟨fun c hc => h.1 c (hinf.sublist.subset hc), ?_⟩
  exact noDoubleSpace_within hinf h.2

-- ### Lemmas about the chunk splitter

theorem splitChunksF_nil (fuel : Nat) : splitChunksF fuel [] = [] := by
  cases fuel <;> rfl

theorem splitChunksF_flatten : ∀ (fuel : Nat) (s : List Char),
    s.length ≤ fuel → (splitChunksF fuel s).flatten = s := by
  intro fuel
  induction fuel with
  | zero =>
    intro s h
    rw [List.length_eq_zero.mp (Nat.le_zero.mp h)]
    rfl
  | succ fuel ih =>
    intro s h
    cases s with
    | nil => rfl
    | cons c rest =>
      rw [splitChunksF]
      simp only [List.flatten_cons]
      rw [ih (rest.dropWhile (chunkPred c))
        (le_trans ((List.dropWhile_suffix _).sublist.length_le) (by simpa using h))]
      rw [List.cons_append, List.takeWhile_append_dropWhile]

theorem splitChunks_flatten (s : List Char) : (splitChunks s).flatten = s :=
  splitChunksF_flatten s.length s le_rfl

theorem chunkPred_space {c d : Char} (hc : c = ' ') (h : chunkPred c d = true) :
    d = ' ' := by
  subst hc
  simp [chunkPred] at h
  exact h

theorem chunkPred_nonspace {c d : Char} (hc : c ≠ ' ')
    (h : chunkPred c d = true) : d ≠ ' ' := by
  simp only [chunkPred, beq_iff_eq] at h
  intro hd
  subst hd
  apply hc
  cases hcc : (c == ' ') with
  | true => exact beq_iff_eq.mp hcc
  | false => rw [hcc] at h; simp at h

theorem splitChunksF_mem_uniform : ∀ (fuel : Nat) (s ch : List Char),
    ch ∈ splitChunksF fuel s →
    (∀ c ∈ ch, c = ' ') ∨ (∀ c ∈ ch, c ≠ ' ') := by
  intro fuel
  induction fuel with
  | zero => intro s ch h; exact absurd h (by simp [splitChunksF])
  | succ fuel ih =>
    intro s ch h
    cases s with
    | nil => exact absurd h (by simp [splitChunksF])
    | cons c rest =>
      rw [splitChunksF] at h
      rcases List.mem_cons.mp h with h | h
      · subst h
        by_cases hc : c = ' '
        · left
          intro d hd
          rcases List.mem_cons.mp hd with hd | hd
          · exact hd ▸ hc
          · exact chunkPred_space hc (List.mem_takeWhile_imp hd)
        · right
          intro d hd
          rcases List.mem_cons.mp hd with hd | hd
          · exact hd ▸ hc
          · exact chunkPred_nonspace hc (List.mem_takeWhile_imp hd)
      · exact ih _ ch h

theorem splitChunks_mem_uniform (s ch : List Char) (h : ch ∈ splitChunks s) :
    (∀ c ∈ ch, c = ' ') ∨ (∀ c ∈ ch, c ≠ ' ') :=
  splitChunksF_mem_uniform s.length s ch h

theorem splitChunksF_ws_short : ∀ (fuel : Nat) (s ch : List Char),
    noDoubleSpace s = true → ch ∈ splitChunksF fuel s → isWsChunk ch = true →
    ch.length ≤ 1 := by
  intro fuel
  induction fuel with
  | zero => intro s ch _ h _; exact absurd h (by simp [splitChunksF])
  | succ fuel ih =>
    intro s ch hnd h hws
    cases s with
    | nil => exact absurd h (by simp [splitChunksF])
    | cons c rest =>
      rw [splitChunksF] at h
      rcases List.mem_cons.mp h with h | h
      · subst h
        cases htw : rest.takeWhile (chunkPred c) with
        | nil => simp [htw]
        | cons d t =>
          exfalso
          have hc : c = ' ' := by
            have := (List.all_eq_true.mp hws) c (by simp [htw])
            exact beq_iff_eq.mp this
          have hd : d = ' ' := by
            have := (List.all_eq_true.mp hws) d (by simp [htw])
            exact beq_iff_eq.mp this
          have hrest : rest = d :: (rest.drop 1) := by
            cases rest with
            | nil => rw [List.takeWhile_nil] at htw; exact absurd htw (by simp)
            | cons e t2 =>
              have : e = d := by
                by_cases hp : chunkPred c e = true
                · rw [List.takeWhile_cons, if_pos hp] at htw
                  exact (List.cons.injEq _ _ _ _ ▸ htw).1.symm ▸ rfl
                · rw [List.takeWhile_cons,
                    if_neg (by simpa using hp)] at htw
                  exact absurd htw (by simp)
              rw [this]
              rfl
          rw [hrest] at hnd
          rw [show noDoubleSpace (c :: d :: rest.drop 1) =
              (!(c == ' ' && d == ' ') && noDoubleSpace (d :: rest.drop 1))
              from rfl] at hnd
          rcases Bool.and_eq_true_iff.mp hnd with ⟨h1, _⟩
          rw [hc, hd] at h1
          simp at h1
      · exact ih _ ch (noDoubleSpace_within
          ((List.dropWhile_suffix (chunkPred c)).isInfix.trans
            (List.suffix_cons c rest).isInfix) hnd) h hws

theorem splitChunks_ws_short (s ch : List Char) (hnd : noDoubleSpace s = true)
    (h : ch ∈ splitChunks s) (hws : isWsChunk ch = true) : ch.length ≤ 1 :=
  splitChunksF_ws_short s.length s ch hnd h hws

theorem splitChunks_single (p : List Char) (hne : p ≠ [])
    (hns : ∀ c ∈ p, c ≠ ' ') : splitChunks p = [p] := by
  cases p with
  | nil => exact absurd rfl hne
  | cons c rest =>
    unfold splitChunks
    rw [show (c :: rest).length = rest.length + 1 from rfl, splitChunksF]
    have hall : ∀ d ∈ rest, chunkPred c d = true := by
      intro d hd
      have hdne : d ≠ ' ' := hns d (List.mem_cons_of_mem c hd)
      have hcne : c ≠ ' ' := hns c (List.mem_cons_self c rest)
      simp only [chunkPred]
      rw [beq_eq_false_iff_ne.mpr hdne, beq_eq_false_iff_ne.mpr hcne]
      rfl
    rw [List.takeWhile_eq_self_iff.mpr hall,
      List.dropWhile_eq_nil_iff.mpr (fun x hx => hall x hx)]
    rw [splitChunksF_nil]

-- ### Lemmas about the greedy wrapper

/-- Total character count of a list of chunks. -/
def sumLen (l : List (List Char)) : Nat := (l.map List.length).sum

theorem takeChunks_append (width : Nat) : ∀ (cur : Nat) (chunks : List (List Char)),
    (takeChunks width cur chunks).1 ++ (takeChunks width cur chunks).2 = chunks := by
  intro cur chunks
  induction chunks generalizing cur with
  | nil => rfl
  | cons ch rest ih =>
    rw [takeChunks]
    by_cases h : cur + ch.length ≤ width
    · simp only [if_pos h, List.cons_append, ih]
    · simp only [if_neg h]
      rfl

theorem takeChunks_sum (width : Nat) : ∀ (cur : Nat) (chunks : List (List Char)),
    cur ≤ width → cur + sumLen (takeChunks width cur chunks).1 ≤ width := by
  intro cur chunks
  induction chunks generalizing cur with
  | nil => intro h; simpa [takeChunks, sumLen] using h
  | cons ch rest ih =>
    intro h
    rw [takeChunks]
    by_cases hfit : cur + ch.length ≤ width
    · simp only [if_pos hfit]
      have := ih (cur + ch.length) hfit
      simp only [sumLen, List.map_cons, List.sum_cons] at this ⊢
      omega
    · simp only [if_neg hfit, sumLen, List.map_nil, List.sum_nil]
      omega

theorem handleLong_append (width : Nat) (tk rm : List (List Char)) :
    (handleLong width tk rm).1 ++ (handleLong width tk rm).2 = tk ++ rm := by
  rcases tk with _ | ⟨t, tk2⟩ <;> rcases rm with _ | ⟨long, rm2⟩ <;>
    simp [handleLong]
  by_cases h : width < long.length
  · simp [if_pos h]
  · simp [if_neg h]

theorem handleLong_cases (width : Nat) (tk rm : List (List Char)) :
    (handleLong width tk rm).1 = tk ∨
      ∃ long, (handleLong width tk rm).1 = [long] ∧ long ∈ rm := by
  rcases tk with _ | ⟨t, tk2⟩ <;> rcases rm with _ | ⟨long, rm2⟩
  · left; rfl
  · by_cases h : width < long.length
    · right
      exact ⟨long, by simp [handleLong, if_pos h], List.mem_cons_self _ _⟩
    · left
      simp [handleLong, if_neg h]
  · left; rfl
  · left; rfl

theorem take_pref {α : Type} (n : Nat) (l : List α) : l.take n <+: l :=
  ⟨l.drop n, List.take_append_drop n l⟩

theorem dropLast_pref {α : Type} (l : List α) : l.dropLast <+: l := by
  rw [List.dropLast_eq_take]
  exact take_pref _ l

theorem dropTrailingWs_pref (tk : List (List Char)) : dropTrailingWs tk <+: tk := by
  unfold dropTrailingWs
  split
  · split
    · exact dropLast_pref tk
    · exact List.prefix_refl tk
  · exact List.prefix_refl tk

theorem flatten_pref_mono {l₁ l₂ : List (List Char)} (h : l₁ <+: l₂) :
    l₁.flatten <+: l₂.flatten := by
  obtain ⟨t, rfl⟩ := h
  rw [List.flatten_append]
  exact ⟨t.flatten, rfl⟩

theorem pref_sumLen_le {l₁ l₂ : List (List Char)} (h : l₁ <+: l₂) :
    sumLen l₁ ≤ sumLen l₂ := by
  obtain ⟨t, rfl⟩ := h
  simp [sumLen]

theorem pref_of_singleton {α : Type} {l : List α} {a : α} (h : l <+: [a]) :
    l = [] ∨ l = [a] := by
  obtain ⟨t, ht⟩ := h
  cases l with
  | nil => exact Or.inl rfl
  | cons c l2 =>
    rcases List.cons.injEq _ _ _ _ ▸ ht with ⟨hc, hl⟩
    have h2 : l2 = [] := by
      rcases List.append_eq_nil.mp hl with ⟨h2, _⟩
      exact h2
    subst hc h2
    exact Or.inr rfl

/-- Every line the greedy wrapper emits either fits the width or is a
single (over-long) chunk kept whole, and is in every case a contiguous
substring of the chunk list's text. -/
theorem wrapAux_mem (width : Nat) :
    ∀ (fuel : Nat) (hasLines : Bool) (chunks : List (List Char)) (p : List Char),
      p ∈ wrapChunksAux width fuel hasLines chunks →
      (p.length ≤ width ∨ p ∈ chunks) ∧ p <:+: chunks.flatten := by
  intro fuel
  induction fuel with
  | zero =>
    intro hasLines chunks p hp
    exact absurd hp (by simp [wrapChunksAux])
  | succ fuel ih =>
    intro hasLines chunks p hp
    cases chunks with
    | nil => exact absurd hp (by simp [wrapChunksAux])
    | cons ch0 rest0 =>
      simp only [wrapChunksAux] at hp
      set C := (if hasLines && isWsChunk ch0 then rest0 else ch0 :: rest0)
        with hC
      generalize hT : takeChunks width 0 C = T at hp
      obtain ⟨tk, rm⟩ := T
      dsimp only at hp
      generalize hH : handleLong width tk rm = H at hp
      obtain ⟨q1, q2⟩ := H
      dsimp only at hp
      generalize hL : dropTrailingWs q1 = line at hp
      have hCsub : ∃ pre, ch0 :: rest0 = pre ++ C := by
        rw [hC]
        by_cases hd : hasLines && isWsChunk ch0
        · rw [if_pos hd]
          exact ⟨[ch0], rfl⟩
        · rw [if_neg hd]
          exact ⟨[], rfl⟩
      have htkrm : tk ++ rm = C := by
        have h := takeChunks_append width 0 C
        rw [hT] at h
        exact h
      have hsum : sumLen tk ≤ width := by
        have h := takeChunks_sum width 0 C (Nat.zero_le width)
        rw [hT] at h
        simpa using h
      have hq12 : q1 ++ q2 = C := by
        have h := handleLong_append width tk rm
        rw [hH] at h
        dsimp only at h
        rw [h, htkrm]
      have hq1cases : q1 = tk ∨ ∃ long, q1 = [long] ∧ long ∈ rm := by
        have h := handleLong_cases width tk rm
        rw [hH] at h
        simpa using h
      have hline : line <+: q1 := by
        rw [← hL]
        exact dropTrailingWs_pref q1
      have hmemC : ∀ x, x ∈ C → x ∈ ch0 :: rest0 := by
        obtain ⟨pre, hpre⟩ := hCsub
        intro x hx
        rw [hpre]
        exact List.mem_append_right pre hx
      have hflatC : C.flatten <:+ (ch0 :: rest0).flatten := by
        obtain ⟨pre, hpre⟩ := hCsub
        rw [hpre]
        exact ⟨pre.flatten, (List.flatten_append pre C).symm⟩
      have hmemrm : ∀ x, x ∈ rm → x ∈ C := by
        intro x hx
        rw [← htkrm]
        exact List.mem_append_right tk hx
      have hmemq2 : ∀ x, x ∈ q2 → x ∈ C := by
        intro x hx
        rw [← hq12]
        exact List.mem_append_right q1 hx
      have hflatq2 : q2.flatten <:+ C.flatten := by
        rw [← hq12]
        exact ⟨q1.flatten, (List.flatten_append q1 q2).symm⟩
      have hrec : ∀ (b : Bool), p ∈ wrapChunksAux width fuel b q2 →
          (p.length ≤ width ∨ p ∈ ch0 :: rest0) ∧
            p <:+: (ch0 :: rest0).flatten := by
        intro b hpb
        obtain ⟨hbm, hinf⟩ := ih b q2 p hpb
        refine ⟨?_, hinf.trans (hflatq2.isInfix.trans hflatC.isInfix)⟩
        rcases hbm with h | h
        · exact Or.inl h
        · exact Or.inr (hmemC p (hmemq2 p h))
      by_cases hem : line.isEmpty = true
      · rw [if_pos hem] at hp
        exact hrec hasLines hp
      · rw [if_neg hem] at hp
        rcases List.mem_cons.mp hp with hpe | hp2
        · subst hpe
          constructor
          · rcases hq1cases with hq | ⟨long, hq, hlmem⟩
            · left
              rw [hq] at hline
              have h1 : line.flatten.length = sumLen line := by
                rw [List.length_flatten]
                rfl
              have h2 : sumLen line ≤ sumLen tk := pref_sumLen_le hline
              omega
            · right
              rw [hq] at hline
              rcases pref_of_singleton hline with h0 | h1
              · exact absurd (by rw [h0]; rfl) hem
              · rw [h1, show ([long] : List (List Char)).flatten = long by simp]
                exact hmemC long (hmemrm long hlmem)
          · have h1 : line.flatten <+: q1.flatten := flatten_pref_mono hline
            have h2 : q1.flatten <+: C.flatten := by
              rw [← hq12]
              exact ⟨q2.flatten, (List.flatten_append q1 q2).symm⟩
            exact ((h1.trans h2).isInfix).trans hflatC.isInfix
        · exact hrec true hp2

theorem textwrap_wrap_mem (width : Nat) (s p : List Char)
    (hp : p ∈ textwrap_wrap width s) :
    (p.length ≤ width ∨ p ∈ splitChunks s) ∧ p <:+: s := by
  have h := wrapAux_mem width (splitChunks s).length false (splitChunks s) p hp
  rwa [splitChunks_flatten] at h

/-- A single word longer than the width is returned whole on a line of its
own (break_long_words=False). -/
theorem wrap_single_long (width : Nat) (p : List Char) (hne : p ≠ [])
    (hns : ∀ c ∈ p, c ≠ ' ') (hlen : width < p.length) :
    textwrap_wrap width p = [p] := by
  have hws : isWsChunk p = false := by
    cases p with
    | nil => exact absurd rfl hne
    | cons c t =>
      have hc : (c == ' ') = false :=
        beq_eq_false_iff_ne.mpr (hns c (List.mem_cons_self c t))
      simp [isWsChunk, hc]
  have h1 : takeChunks width 0 [p] = ([], [p]) := by
    rw [takeChunks, if_neg (by omega)]
  have h2 : handleLong width ([] : List (List Char)) [p] = ([p], []) := by
    simp [handleLong, hlen]
  have h3 : dropTrailingWs [p] = [p] := by
    unfold dropTrailingWs
    rw [show ([p] : List (List Char)).getLast? = some p from rfl]
    show (if isWsChunk p = true then _ else _) = _
    rw [hws]
    simp
  unfold textwrap_wrap
  rw [splitChunks_single p hne hns]
  show wrapChunksAux width 1 false [p] = [p]
  rw [wrapChunksAux]
  simp [h1, h2, h3, hne, wrapChunksAux]

/-- Shape of every make_phrases output phrase: a contiguous substring of
the cleaned line, either within the maximum length or a single chunk of
the cleaned line; and a non-empty output forces the cleaned line past the
minimum. -/
theorem make_phrases_cases (line : List Char) (args : Args) (p : List Char)
    (hp : p ∈ make_phrases line args) :
    p <:+: cleanLine line ∧
      (p.length ≤ args.max ∨ p ∈ splitChunks (cleanLine line)) ∧
      args.min ≤ (cleanLine line).length := by
  simp only [make_phrases] at hp
  by_cases h1 : (cleanLine line).length < args.min
  · rw [if_pos h1] at hp
    exact absurd hp (by simp)
  · rw [if_neg h1] at hp
    by_cases h2 : args.max < (cleanLine line).length
    · rw [if_pos h2] at hp
      obtain ⟨hbm, hinf⟩ := textwrap_wrap_mem args.max (cleanLine line) p hp
      exact ⟨hinf, hbm, by omega⟩
    · rw [if_neg h2] at hp
      rw [List.mem_singleton.mp hp]
      exact ⟨List.infix_refl _, Or.inl (by omega), by omega⟩

def line45 : List Char := List.replicate 39 'a' ++ [' '] ++ List.replicate 5 'b'

def line41 : List Char := List.replicate 41 'a'

def lineC7 : List Char := List.replicate 40 'a' ++ [' ', 'b', 'c', 'd']

def lineC10 : List Char := List.replicate 39 'a' ++ [' ', 'x', 'y']

/-- C6 (amended): a cleaned line exactly at the maximum is kept whole; one
below the minimum is dropped; a line over the maximum is greedily
word-wrapped and, whenever every chunk of the cleaned line fits the
maximum, no resulting phrase exceeds the maximum (a lone over-long word is
kept whole and may exceed it); the 45-character scenario line yields
exactly two phrases, each within 40 characters, whose concatenation minus
the split space reconstructs the cleaned line. -/
theorem make_phrases_boundary_behaviour (args : Args) (line : List Char)
    (hminmax : args.min ≤ args.max) :
    ((cleanLine line).length = args.max →
      make_phrases line args = [cleanLine line]) ∧
    ((cleanLine line).length < args.min → make_phrases line args = []) ∧
    ((∀ ch ∈ splitChunks (cleanLine line), ch.length ≤ args.max) →
      ∀ p ∈ make_phrases line args, p.length ≤ args.max) ∧
    (make_phrases line45 ⟨8, 40⟩ =
        [List.replicate 39 'a', List.replicate 5 'b'] ∧
      List.replicate 39 'a' ++ [' '] ++ List.replicate 5 'b' =
        cleanLine line45 ∧
      (List.replicate 39 'a').length ≤ 40 ∧
      (List.replicate 5 'b').length ≤ 40) := by
  refine ⟨?_, ?_, ?_, by decide⟩
  · intro hlen
    simp only [make_phrases]
    rw [if_neg (by omega), if_neg (by omega)]
  · intro hlen
    simp only [make_phrases]
    rw [if_pos hlen]
  · intro hch p hp
    obtain ⟨_, hbm, _⟩ := make_phrases_cases line args p hp
    rcases hbm with h | h
    · exact h
    · exact hch p h

theorem make_phrases_boundary_behaviour_witness :
    make_phrases (List.replicate 40 'a') ⟨8, 40⟩ =
      [cleanLine (List.replicate 40 'a')] :=
  (make_phrases_boundary_behaviour ⟨8, 40⟩ (List.replicate 40 'a')
    (by decide)).1 (by decide)

/-- C6 counterexample: a 41-character cleaned line with no spaces and
max=40 is not wrapped into multiple phrases within the maximum: the result
is one phrase of 41 characters. -/
theorem long_line_single_phrase_counterexample :
    (cleanLine line41).length = 41 ∧
    make_phrases line41 ⟨8, 40⟩ = [line41] ∧
    ¬(2 ≤ (make_phrases line41 ⟨8, 40⟩).length ∧
      ∀ p ∈ make_phrases line41 ⟨8, 40⟩, p.length ≤ 40) := by
  decide

/-- C7 (amended): an output phrase of make_phrases whose length still
reaches the configured minimum is reproduced exactly by a second
make_phrases run under the same configuration (with max ≥ 1 as textwrap
requires); wrapped fragments that fell below the minimum are instead
dropped by the second run. -/
theorem make_phrases_idempotent_on_long_outputs
    (args : Args) (line p : List Char) (hmax : 1 ≤ args.max)
    (hp : p ∈ make_phrases line args) (hmin : args.min ≤ p.length) :
    make_phrases p args = [p] := by
  obtain ⟨hinf, hbm, _⟩ := make_phrases_cases line args p hp
  have hok : CleanOK p := CleanOK_infix hinf (cleanLine_cleanOK line)
  have hcl : cleanLine p = p := cleanLine_eq_self hok
  simp only [make_phrases]
  rw [hcl]
  rw [if_neg (by omega)]
  by_cases hlen : args.max < p.length
  · rw [if_pos hlen]
    rcases hbm with hb | hb
    · omega
    · rcases splitChunks_mem_uniform (cleanLine line) p hb with hsp | hsp
      · exfalso
        have hwsp : isWsChunk p = true := by
          unfold isWsChunk
          rw [List.all_eq_true]
          intro c hc
          exact beq_iff_eq.mpr (hsp c hc)
        have := splitChunks_ws_short (cleanLine line) p
          (cleanLine_cleanOK line).2 hb hwsp
        omega
      · have hpne : p ≠ [] := by
          intro h
          rw [h] at hlen
          simp only [List.length_nil] at hlen
          omega
        exact wrap_single_long args.max p hpne hsp hlen
  · rw [if_neg hlen]

theorem make_phrases_idempotent_on_long_outputs_witness :
    make_phrases (List.replicate 39 'a') ⟨8, 40⟩ = [List.replicate 39 'a'] :=
  make_phrases_idempotent_on_long_outputs ⟨8, 40⟩ line45
    (List.replicate 39 'a') (by decide) (by decide) (by decide)

/-- C7 counterexample: the output phrase "bcd" of make_phrases on a
44-character line (wrapped fragment shorter than min=8) is not reproduced
by a second run: make_phrases drops it, so re-running the extractor on its
own output is not the identity. -/
theorem make_phrases_not_idempotent_counterexample :
    (['b', 'c', 'd'] : List Char) ∈ make_phrases lineC7 ⟨8, 40⟩ ∧
    make_phrases ['b', 'c', 'd'] ⟨8, 40⟩ ≠ [['b', 'c', 'd']] := by
  decide

/-- C10: wrapping does not re-check the minimum: with min=8, max=40 and a
42-character line ending in the two-letter word "xy", make_phrases emits
the fragment "xy" of length 2 < 8. -/
theorem wrapped_fragment_below_min :
    make_phrases lineC10 ⟨8, 40⟩ =
      [List.replicate 39 'a', ['x', 'y']] ∧
    (['x', 'y'] : List Char).length < 8 := by
  decide
